import Mathlib

/-!
# Resource Saver — verification of the capture client and catalog store

Shallow embedding of the Resource Saver browser extension
(`src/entrypoints/popup/App.tsx`, `src/unnamed/part_001` = `config.ts`)
and of the catalog store / service the spec describes (the backend
`backend/main.py` is not part of the sources, so that component is
modelled from the spec, and marked as such).

JavaScript strings are modelled by Lean `String` (sequences of Unicode
scalar values); JavaScript truthiness of a string is emptiness testing;
`localStorage` is an association list keyed by strings.
-/

namespace ResourceSaver

/-- `config.ts`: `export const API_BASE_URL = 'http://localhost:8080';` -/
def API_BASE_URL : String := "http://localhost:8080"

/-- An entry of the custom-type catalog: `{ value: string; label: string }`
in `App.tsx`. -/
structure CustomType where
  value : String
  label : String
deriving DecidableEq, Repr

/-- `interface TabInfo { title: string; url: string }`.  A missing
(`undefined`) title or url is modelled by the empty string: both are
falsy in JavaScript, and the code only tests them for truthiness. -/
structure TabInfo where
  title : String
  url : String
deriving DecidableEq, Repr

/-- `type Status = 'idle' | 'loading' | 'success' | 'error'`. -/
inductive Status where
  | idle
  | loading
  | success
  | error
deriving DecidableEq, Repr

/-- The React component state of `App` (the `useState` hooks). -/
structure AppState where
  tabInfo : TabInfo
  resourceType : String
  status : Status
  message : String
  customTypes : List CustomType
  newTypeName : String
  showAddType : Bool
deriving DecidableEq, Repr

/-- The initial values of the `useState` hooks in `App`. -/
def initialState : AppState :=
  { tabInfo := ⟨"", ""⟩
    resourceType := "article"
    status := .idle
    message := ""
    customTypes := []
    newTypeName := ""
    showAddType := false }

/-- Does `needle` start `hay`?  Helper for the substring test below. -/
def leadsWith : List Char → List Char → Bool
  | [], _ => true
  | _ :: _, [] => false
  | a :: as, b :: bs => a = b && leadsWith as bs

/-- JavaScript `hay.includes(needle)`: `needle` occurs as a contiguous
substring of `hay`. -/
def jsIncludes (hay needle : String) : Bool :=
  go needle.toList hay.toList
where
  go (n : List Char) : List Char → Bool
    | [] => leadsWith n []
    | c :: cs => leadsWith n (c :: cs) || go n cs

/-- `fetchTabInfo` (App.tsx:199–219): with the queried active tab, if both
`tab?.title` and `tab?.url` are truthy, store them in `tabInfo` and, when
the url contains `youtube.com` or `youtu.be`, switch the resource type to
`youtube`; otherwise leave the state unchanged. -/
def fetchTabInfo (s : AppState) (tab : Option TabInfo) : AppState :=
  match tab with
  | none => s
  | some t =>
    if t.title ≠ "" ∧ t.url ≠ "" then
      let s1 := { s with tabInfo := t }
      if jsIncludes t.url "youtube.com" || jsIncludes t.url "youtu.be" then
        { s1 with resourceType := "youtube" }
      else s1
    else s

/-- An HTTP request as assembled by `fetch` in `handleSave`: method,
full url, and the JSON body as an ordered list of string fields. -/
structure HttpRequest where
  method : String
  url : String
  body : List (String × String)
deriving DecidableEq, Repr

/-- `handleSave` (App.tsx:221–260) up to the point where the request is
handed to the network: on a falsy (empty) url or title it sets an error
status and returns without issuing a request; otherwise it issues a
single `POST` to `` `${API_BASE_URL}/save` `` whose JSON body has exactly
the fields `title`, `url`, `type`, and enters the `loading` state. -/
def handleSave (s : AppState) : AppState × Option HttpRequest :=
  if s.tabInfo.url = "" ∨ s.tabInfo.title = "" then
    ({ s with status := .error, message := "Missing title or URL" }, none)
  else
    ({ s with status := .loading, message := "" },
     some { method := "POST"
            url := API_BASE_URL ++ "/save"
            body := [("title", s.tabInfo.title),
                     ("url", s.tabInfo.url),
                     ("type", s.resourceType)] })

/-! ## JSON encoding of the custom-type catalog

`saveCustomTypes` stores `JSON.stringify(types)` and `loadCustomTypes`
reads it back with `JSON.parse`.  For a value of TypeScript type
`{value: string; label: string}[]` the stringified form is
`[{"value":…,"label":…},…]` with JSON string escaping; we model
`JSON.stringify` by `renderCTs` and `JSON.parse` (at that type) by
`parseCTs`, a parser of exactly that grammar which rejects everything
else (a JSON text of a different shape would not have this TypeScript
type). -/

/-- Hex digit character, lowercase, as produced by `JSON.stringify`
in `\u00XX` escapes. -/
def hexDigitChar (n : Nat) : Char :=
  if n < 10 then Char.ofNat ('0'.toNat + n) else Char.ofNat ('a'.toNat + (n - 10))

/-- Value of a hex digit character (either case), `none` otherwise. -/
def hexVal (c : Char) : Option Nat :=
  if '0' ≤ c ∧ c ≤ '9' then some (c.toNat - '0'.toNat)
  else if 'a' ≤ c ∧ c ≤ 'f' then some (c.toNat - 'a'.toNat + 10)
  else if 'A' ≤ c ∧ c ≤ 'F' then some (c.toNat - 'A'.toNat + 10)
  else none

/-- JSON string escaping of one character, as `JSON.stringify` performs
it: `"` and `\` are backslash-escaped, the control characters with
short forms use them, the remaining control characters become
`\u00XX`, and every other character is untouched. -/
def escapeChar (c : Char) : List Char :=
  if c = '"' then ['\\', '"']
  else if c = '\\' then ['\\', '\\']
  else if c = '\x08' then ['\\', 'b']
  else if c = '\x09' then ['\\', 't']
  else if c = '\x0a' then ['\\', 'n']
  else if c = '\x0c' then ['\\', 'f']
  else if c = '\x0d' then ['\\', 'r']
  else if c.toNat < 0x20 then
    ['\\', 'u', '0', '0', hexDigitChar (c.toNat / 16), hexDigitChar (c.toNat % 16)]
  else [c]

/-- JSON string escaping of a character sequence. -/
def escapeList : List Char → List Char
  | [] => []
  | c :: cs => escapeChar c ++ escapeList cs

/-- A JSON string literal (quotes included). -/
def renderString (s : String) : List Char :=
  '"' :: (escapeList s.toList ++ ['"'])

/-- `JSON.stringify` of one catalog entry:
`{"value":…,"label":…}` (object-literal key order). -/
def renderCT (t : CustomType) : List Char :=
  '{' :: '"' :: 'v' :: 'a' :: 'l' :: 'u' :: 'e' :: '"' :: ':' ::
    (renderString t.value ++
      (',' :: '"' :: 'l' :: 'a' :: 'b' :: 'e' :: 'l' :: '"' :: ':' ::
        (renderString t.label ++ ['}'])))

/-- The comma-separated entry list inside the stringified array. -/
def renderInner : List CustomType → List Char
  | [] => []
  | [t] => renderCT t
  | t :: ts => renderCT t ++ ',' :: renderInner ts

/-- `JSON.stringify` of the catalog: the entries between brackets. -/
def renderCTs (l : List CustomType) : String :=
  String.mk ('[' :: (renderInner l ++ [']']))

/-- Prepend a character to the string under construction inside a
parser result. -/
def consFst (c : Char) : Option (List Char × List Char) → Option (List Char × List Char)
  | none => none
  | some (s, r) => some (c :: s, r)

/-- Unescape a single-character JSON escape (`\"`, `\\`, `\/`, `\b`,
`\t`, `\n`, `\f`, `\r`). -/
def unescChar (e : Char) : Option Char :=
  if e = '"' then some '"'
  else if e = '\\' then some '\\'
  else if e = '/' then some '/'
  else if e = 'b' then some '\x08'
  else if e = 't' then some '\x09'
  else if e = 'n' then some '\x0a'
  else if e = 'f' then some '\x0c'
  else if e = 'r' then some '\x0d'
  else none

/-- Parse a JSON string body (after the opening quote) up to the
closing quote; returns the unescaped contents and the rest of the
input. -/
def parseStr : List Char → Option (List Char × List Char)
  | [] => none
  | c :: cs =>
    if c = '"' then some ([], cs)
    else if c = '\\' then
      match cs with
      | [] => none
      | e :: cs2 =>
        if e = 'u' then
          match cs2 with
          | h1 :: h2 :: h3 :: h4 :: cs3 =>
            match hexVal h1, hexVal h2, hexVal h3, hexVal h4 with
            | some a, some b, some m, some d =>
              consFst (Char.ofNat (((a * 16 + b) * 16 + m) * 16 + d)) (parseStr cs3)
            | _, _, _, _ => none
          | _ => none
        else
          match unescChar e with
          | some u => consFst u (parseStr cs2)
          | none => none
    else consFst c (parseStr cs)

/-- Strip an expected literal prefix from the input. -/
def stripLead : List Char → List Char → Option (List Char)
  | [], rest => some rest
  | _ :: _, [] => none
  | e :: es, c :: cs => if c = e then stripLead es cs else none

/-- Expect the closing brace of an object. -/
def expectClose : List Char → Option (List Char)
  | '}' :: r => some r
  | _ => none

/-- Parse one `{"value":…,"label":…}` object; returns the entry and
the rest of the input. -/
def parseCT (l : List Char) : Option (CustomType × List Char) :=
  (stripLead ['{', '"', 'v', 'a', 'l', 'u', 'e', '"', ':', '"'] l).bind fun r1 =>
  (parseStr r1).bind fun p1 =>
  (stripLead [',', '"', 'l', 'a', 'b', 'e', 'l', '"', ':', '"'] p1.2).bind fun r2 =>
  (parseStr r2).bind fun p2 =>
  (expectClose p2.2).map fun r3 => (⟨String.mk p1.1, String.mk p2.1⟩, r3)

/-- Parse the comma-separated, bracket-terminated entry sequence that
follows a non-empty array's `[`.  The fuel argument bounds the number
of entries; the whole remaining input length always suffices. -/
def parseItemsAux (fuel : Nat) (l : List Char) : Option (List CustomType) :=
  (parseCT l).bind fun p =>
    match p.2 with
    | [']'] => some [p.1]
    | ',' :: rest2 =>
      match fuel with
      | 0 => none
      | fuel2 + 1 => (parseItemsAux fuel2 rest2).map (p.1 :: ·)
    | _ => none

/-- Parse a JSON array of catalog entries (the character level). -/
def parseArr : List Char → Option (List CustomType)
  | '[' :: rest => if rest = [']'] then some [] else parseItemsAux rest.length rest
  | _ => none

/-- `JSON.parse` at type `{value: string; label: string}[]`: accepts
exactly the canonical stringified form of a catalog. -/
def parseCTs (s : String) : Option (List CustomType) :=
  parseArr s.toList

/-! ## localStorage and the custom-type catalog functions -/

/-- The browser's `localStorage`, as an association list; `setItem`
shadows previous bindings. -/
def LocalStorage := List (String × String)

/-- `localStorage.getItem(k)`: the most recently set value for `k`,
or `null` (`none`). -/
def getItem (k : String) (st : LocalStorage) : Option String :=
  match st with
  | [] => none
  | (k2, v) :: rest => if k2 = k then some v else getItem k rest

/-- `localStorage.setItem(k, v)`. -/
def setItem (k v : String) (st : LocalStorage) : LocalStorage :=
  (k, v) :: st

/-- `loadCustomTypes` (App.tsx:171–178): read `customTypes` from
localStorage; JavaScript truthiness makes both a missing key and the
empty string yield `[]`, and the surrounding `try`/`catch` turns a
`JSON.parse` failure into `[]`. -/
def loadCustomTypes (st : LocalStorage) : List CustomType :=
  match getItem "customTypes" st with
  | none => []
  | some s => if s = "" then [] else (parseCTs s).getD []

/-- `saveCustomTypes` (App.tsx:181–183): store the stringified catalog
under the key `customTypes`. -/
def saveCustomTypes (types : List CustomType) (st : LocalStorage) : LocalStorage :=
  setItem "customTypes" (renderCTs types) st

/-! ## Adding a custom type (App.tsx:335–365)

Both the Enter-key handler and the Add button run the same code: when
`newTypeName.trim()` is truthy they append
`{value: newTypeName.toLowerCase().replace(/\s+/g, '-'),
  label: `🏷️ ${newTypeName.trim()}`}`
to the catalog, persist it, select the new value, and reset the input. -/

/-- The JavaScript whitespace class: the characters matched by the
regular expression `\s` (which is also the set `String.prototype.trim`
removes). -/
def isJsWs (c : Char) : Bool :=
  c = ' ' || c = '\t' || c = '\n' || c = '\r' || c = '\x0b' || c = '\x0c' ||
  c = '\u00A0' || c = '\u1680' || (0x2000 ≤ c.toNat && c.toNat ≤ 0x200A) ||
  c = '\u2028' || c = '\u2029' || c = '\u202F' || c = '\u205F' ||
  c = '\u3000' || c = '\uFEFF'

/-- `String.prototype.trim`: strip leading and trailing whitespace. -/
def jsTrim (s : String) : String :=
  String.mk (((s.toList.dropWhile isJsWs).reverse.dropWhile isJsWs).reverse)

/-- Does the sequence begin with a whitespace character? -/
def headIsWs : List Char → Bool
  | [] => false
  | c :: _ => isJsWs c

/-- `.replace(/\s+/g, '-')`: each maximal run of whitespace becomes a
single hyphen (`\s+` is greedy, so every match is a maximal run); a
whitespace character emits the hyphen only when it ends its run. -/
def collapseWs : List Char → List Char
  | [] => []
  | c :: cs =>
    if isJsWs c then
      if headIsWs cs then collapseWs cs else '-' :: collapseWs cs
    else c :: collapseWs cs

/-- `name.toLowerCase().replace(/\s+/g, '-')`, the slug stored as the
new type's `value` (case mapping modelled by `Char.toLower`). -/
def slugify (name : String) : String :=
  String.mk (collapseWs (name.toList.map Char.toLower))

/-- Split a character sequence at its maximal whitespace runs: the
(possibly empty) non-whitespace chunks, with an empty chunk at an end
that begins or ends with whitespace.  Joining the chunks with `-`
states what "replace every maximal whitespace run by one hyphen"
means. -/
def splitWs : List Char → List (List Char)
  | [] => [[]]
  | c :: cs =>
    if isJsWs c then
      if headIsWs cs then splitWs cs else [] :: splitWs cs
    else
      match splitWs cs with
      | [] => [[c]]
      | chunk :: rest => (c :: chunk) :: rest

/-- Join character chunks with a single hyphen between consecutive
chunks. -/
def joinDash : List (List Char) → List Char
  | [] => []
  | [x] => x
  | x :: xs => x ++ '-' :: joinDash xs

/-- `splitWs` always produces at least one chunk. -/
theorem splitWs_ne_nil (l : List Char) : splitWs l ≠ [] := by
  induction l with
  | nil => simp [splitWs]
  | cons c cs ih =>
    by_cases h : isJsWs c
    · by_cases h2 : headIsWs cs
      · simpa [splitWs, h, h2] using ih
      · simp [splitWs, h, h2]
    · simp only [splitWs, h, Bool.false_eq_true, if_false]
      cases splitWs cs <;> simp

/-- The greedy whitespace-run replacement equals joining the
maximal-run split with single hyphens. -/
theorem collapseWs_eq_joinDash (l : List Char) :
    collapseWs l = joinDash (splitWs l) := by
  induction l with
  | nil => rfl
  | cons c cs ih =>
    by_cases h : isJsWs c
    · by_cases h2 : headIsWs cs
      · simpa [collapseWs, splitWs, h, h2] using ih
      · simp only [collapseWs, splitWs, h, h2, if_true, Bool.false_eq_true,
          if_false]
        rcases hs : splitWs cs with _ | ⟨a, as⟩
        · exact absurd hs (splitWs_ne_nil _)
        · rw [hs] at ih
          simp [joinDash, ih]
    · simp only [collapseWs, splitWs, h, Bool.false_eq_true, if_false]
      rcases hs : splitWs cs with _ | ⟨chunk, rest⟩
      · exact absurd hs (splitWs_ne_nil _)
      · rw [hs] at ih
        cases rest with
        | nil => simp [joinDash, ih]
        | cons r rs => simp [joinDash, ih]

/-- JavaScript whitespace is untouched by lowercasing. -/
theorem toLower_of_isJsWs (c : Char) (h : isJsWs c = true) :
    Char.toLower c = c := by
  have hn : ¬(c.toNat ≥ 65 ∧ c.toNat ≤ 90) := by
    simp only [isJsWs, Bool.or_eq_true, decide_eq_true_eq, Bool.and_eq_true] at h
    rcases h with ((((((((((((((h | h) | h) | h) | h) | h) | h) | h) | ⟨h1, h2⟩) | h) | h) | h) | h) | h) | h) <;>
      first
        | (subst h; decide)
        | omega
  simp [Char.toLower, hn]

/-- The state update shared by the Enter-key handler (App.tsx:335–348)
and the Add button (App.tsx:352–365): a no-op when the trimmed name is
empty (falsy). -/
def addCustomType (s : AppState) : AppState :=
  if jsTrim s.newTypeName ≠ "" then
    let newType : CustomType :=
      { value := slugify s.newTypeName
        label := "🏷️ " ++ jsTrim s.newTypeName }
    { s with customTypes := s.customTypes ++ [newType]
             resourceType := newType.value
             newTypeName := ""
             showAddType := false }
  else s

/-! ## The catalog store and service

Modelled from the spec: the backend (`backend/main.py`, the FastAPI
service and its SQLite-backed store) is referenced by the repository's
README but is not among the sources.  The model below follows §3–§4 of
the spec: monotonically assigned integer ids starting at 1 (the spec's
concrete scenario has the first `create` return `id=1`), a store-assigned
`created_at` timestamp that increases between inserts, `create` rejecting
empty `title`/`url` with `ValidationError`, `listAll` returning all rows
ordered by `created_at` ascending, and `deleteById` reporting by a
boolean whether a row was removed. -/

/-- Modelled from the spec: the sole persisted entity (§3). -/
structure Resource where
  id : Nat
  title : String
  url : String
  rtype : String
  created_at : Nat
deriving DecidableEq, Repr

/-- Modelled from the spec: the store's error taxonomy (§7); only
`ValidationError` can arise from the modelled operations. -/
inductive StoreError where
  | ValidationError
deriving DecidableEq, Repr

/-- Modelled from the spec: the catalog store's persistent state — the
table of rows, the next id to assign, and a clock supplying
`created_at` values. -/
structure StoreState where
  nextId : Nat
  now : Nat
  rows : List Resource
deriving DecidableEq, Repr

/-- Modelled from the spec: the empty store; ids start at 1. -/
def emptyStore : StoreState :=
  { nextId := 1, now := 0, rows := [] }

/-- Modelled from the spec: `create(title, url, type)` (§4.1) — fails
with `ValidationError` if `title` or `url` is empty, otherwise inserts
a row with the next id and the current timestamp and returns the full
record. -/
def create (st : StoreState) (title url ty : String) :
    Except StoreError (Resource × StoreState) :=
  if title = "" ∨ url = "" then .error .ValidationError
  else
    let r : Resource :=
      { id := st.nextId, title := title, url := url, rtype := ty,
        created_at := st.now }
    .ok (r, { nextId := st.nextId + 1, now := st.now + 1, rows := st.rows ++ [r] })

/-- Insert a resource into a list sorted by `created_at`. -/
def insertByCreated (r : Resource) : List Resource → List Resource
  | [] => [r]
  | x :: xs =>
    if r.created_at ≤ x.created_at then r :: x :: xs
    else x :: insertByCreated r xs

/-- Stable insertion sort by `created_at` ascending. -/
def sortByCreated : List Resource → List Resource
  | [] => []
  | x :: xs => insertByCreated x (sortByCreated xs)

/-- Modelled from the spec: `listAll()` (§4.1) — every stored record,
ordered by `created_at` ascending (`ORDER BY created_at`). -/
def listAll (st : StoreState) : List Resource :=
  sortByCreated st.rows

/-- Modelled from the spec: `deleteById(id)` (§4.1) — remove the row
with the given id if present; the boolean reports whether a row was
removed. -/
def deleteById (st : StoreState) (i : Nat) : Bool × StoreState :=
  let rows2 := st.rows.filter (fun r => r.id ≠ i)
  (decide (rows2.length ≠ st.rows.length), { st with rows := rows2 })

/-- Modelled from the spec: the catalog service's `POST /save` route
(§4.2) dispatching an incoming request to the store — `none` is the
absence of a request, which leaves the store untouched.  The body
fields are looked up by name; a missing field is the empty string
(absent → falsy → rejected by `create`'s validation). -/
def serverStep (st : StoreState) : Option HttpRequest → StoreState
  | none => st
  | some req =>
    if req.method = "POST" ∧ req.url = API_BASE_URL ++ "/save" then
      let field := fun (k : String) =>
        (req.body.lookup k).getD ""
      match create st (field "title") (field "url") (field "type") with
      | .error _ => st
      | .ok (_, st2) => st2
    else st

/-- A store operation, for describing reachable store states. -/
inductive Op where
  | createOp (title url ty : String)
  | deleteOp (i : Nat)
deriving DecidableEq, Repr

/-- Apply one operation to the store (outputs discarded). -/
def applyOp (st : StoreState) : Op → StoreState
  | .createOp t u ty =>
    match create st t u ty with
    | .error _ => st
    | .ok (_, st2) => st2
  | .deleteOp i => (deleteById st i).2

/-- Run a sequence of operations. -/
def runOps (st : StoreState) (ops : List Op) : StoreState :=
  ops.foldl applyOp st

/-- The ids assigned by the successful `create`s along a run, in
order — the ghost trace over which "an id is never reused" is stated. -/
def assignedIds (st : StoreState) : List Op → List Nat
  | [] => []
  | op :: ops =>
    match op with
    | .createOp t u _ =>
      if t = "" ∨ u = "" then assignedIds (applyOp st op) ops
      else st.nextId :: assignedIds (applyOp st op) ops
    | .deleteOp _ => assignedIds (applyOp st op) ops

/-! ## Theorems -/

/-- C1: a save attempt with an empty title or URL reports a client
error, issues no request to the catalog service, and therefore leaves
stored state untouched: a subsequent `listAll` count is unchanged. -/
theorem save_empty_rejected (s : AppState)
    (h : s.tabInfo.title = "" ∨ s.tabInfo.url = "") :
    (handleSave s).2 = none ∧
    (handleSave s).1.status = .error ∧
    ∀ st : StoreState,
      serverStep st (handleSave s).2 = st ∧
      (listAll (serverStep st (handleSave s).2)).length = (listAll st).length := by
  unfold handleSave
  rw [if_pos (h.elim Or.inr Or.inl)]
  exact ⟨rfl, rfl, fun st => ⟨rfl, rfl⟩⟩

/-- Witness for C1 at the initial state (both fields empty). -/
theorem save_empty_rejected_witness :
    (handleSave initialState).2 = none ∧
    (handleSave initialState).1.status = .error ∧
    ∀ st : StoreState,
      serverStep st (handleSave initialState).2 = st ∧
      (listAll (serverStep st (handleSave initialState).2)).length =
        (listAll st).length :=
  save_empty_rejected initialState (Or.inl rfl)

/-- C2: with a non-empty title and URL, the save operation issues a
single POST to `/save` under the configured service address whose JSON
body is exactly the fields `title`, `url`, `type` — in particular no
`id` and no `created_at`. -/
theorem save_posts_exact_fields (s : AppState)
    (h1 : s.tabInfo.title ≠ "") (h2 : s.tabInfo.url ≠ "") :
    (handleSave s).2 = some
      { method := "POST"
        url := API_BASE_URL ++ "/save"
        body := [("title", s.tabInfo.title), ("url", s.tabInfo.url),
                 ("type", s.resourceType)] } ∧
    ∀ req, (handleSave s).2 = some req →
      req.body.map Prod.fst = ["title", "url", "type"] ∧
      "id" ∉ req.body.map Prod.fst ∧
      "created_at" ∉ req.body.map Prod.fst := by
  unfold handleSave
  rw [if_neg (by tauto)]
  refine ⟨rfl, ?_⟩
  rintro req hreq
  cases Option.some.inj hreq
  refine ⟨rfl, by simp, by simp⟩

/-- Witness for C2 at a concrete state. -/
theorem save_posts_exact_fields_witness :
    (handleSave { initialState with tabInfo := ⟨"T", "https://e.com"⟩ }).2 = some
      { method := "POST"
        url := API_BASE_URL ++ "/save"
        body := [("title", "T"), ("url", "https://e.com"), ("type", "article")] } ∧
    ∀ req,
      (handleSave { initialState with tabInfo := ⟨"T", "https://e.com"⟩ }).2 = some req →
      req.body.map Prod.fst = ["title", "url", "type"] ∧
      "id" ∉ req.body.map Prod.fst ∧
      "created_at" ∉ req.body.map Prod.fst :=
  save_posts_exact_fields { initialState with tabInfo := ⟨"T", "https://e.com"⟩ }
    (by decide) (by decide)

/-- C3 counterexample: for a tab whose URL contains `youtube.com` but
whose title is empty (falsy), the client leaves the default type at
`article`, not `youtube` — the guard `tab?.title && tab?.url` skips the
auto-detection, contradicting the claim's "for every active tab …
exactly when the URL contains the substring". -/
theorem youtube_default_counterexample :
    jsIncludes "https://www.youtube.com/watch?v=1" "youtube.com" = true ∧
    (fetchTabInfo initialState
      (some ⟨"", "https://www.youtube.com/watch?v=1"⟩)).resourceType ≠ "youtube" ∧
    (fetchTabInfo initialState
      (some ⟨"", "https://www.youtube.com/watch?v=1"⟩)).resourceType = "article" := by
  refine ⟨by decide, by decide, by decide⟩

/-- C3 amended: for every active tab whose title and URL are both
non-empty, the client defaults the type to `youtube` exactly when the
URL contains `youtube.com` or `youtu.be`, and otherwise leaves it at
`article`. -/
theorem youtube_default_amended (t : TabInfo)
    (h1 : t.title ≠ "") (h2 : t.url ≠ "") :
    ((fetchTabInfo initialState (some t)).resourceType = "youtube" ↔
      (jsIncludes t.url "youtube.com" = true ∨ jsIncludes t.url "youtu.be" = true)) ∧
    (¬(jsIncludes t.url "youtube.com" = true ∨ jsIncludes t.url "youtu.be" = true) →
      (fetchTabInfo initialState (some t)).resourceType = "article") := by
  by_cases hy : (jsIncludes t.url "youtube.com" || jsIncludes t.url "youtu.be") = true
  · have hres : (fetchTabInfo initialState (some t)).resourceType = "youtube" := by
      simp [fetchTabInfo, h1, h2, hy]
    simp only [Bool.or_eq_true] at hy
    exact ⟨⟨fun _ => hy, fun _ => hres⟩, fun hn => absurd hy hn⟩
  · have hres : (fetchTabInfo initialState (some t)).resourceType = "article" := by
      simp [fetchTabInfo, initialState, h1, h2, hy]
    simp only [Bool.or_eq_true] at hy
    refine ⟨⟨fun habs => ?_, fun hor => absurd hor hy⟩, fun _ => hres⟩
    rw [hres] at habs
    exact absurd habs (by decide)

/-- Witness for the amended C3 at a concrete `youtu.be` tab. -/
theorem youtube_default_amended_witness :
    ((fetchTabInfo initialState (some ⟨"T", "https://youtu.be/x"⟩)).resourceType
        = "youtube" ↔
      (jsIncludes "https://youtu.be/x" "youtube.com" = true ∨
       jsIncludes "https://youtu.be/x" "youtu.be" = true)) ∧
    (¬(jsIncludes "https://youtu.be/x" "youtube.com" = true ∨
       jsIncludes "https://youtu.be/x" "youtu.be" = true) →
      (fetchTabInfo initialState (some ⟨"T", "https://youtu.be/x"⟩)).resourceType
        = "article") :=
  youtube_default_amended ⟨"T", "https://youtu.be/x"⟩ (by decide) (by decide)

/-- C7: the custom-label catalog never reaches the service — two runs
of `handleSave` that agree on title, URL, and the chosen type string
issue identical requests regardless of the stored catalog; and
`saveCustomTypes` persists the catalog only under the local-storage key
`customTypes`, leaving every other key untouched. -/
theorem custom_labels_client_only (s1 s2 : AppState)
    (ht : s1.tabInfo = s2.tabInfo) (hr : s1.resourceType = s2.resourceType) :
    (handleSave s1).2 = (handleSave s2).2 ∧
    (∀ (l : List CustomType) (st : LocalStorage) (k : String),
        k ≠ "customTypes" → getItem k (saveCustomTypes l st) = getItem k st) ∧
    (∀ (l : List CustomType) (st : LocalStorage),
        getItem "customTypes" (saveCustomTypes l st) = some (renderCTs l)) := by
  refine ⟨?_, ?_, ?_⟩
  · simp only [handleSave, ht, hr]
    split <;> rfl
  · intro l st k hk
    simp only [saveCustomTypes, setItem, getItem]
    rw [if_neg (fun hkk => hk hkk.symm)]
  · intro l st
    simp [saveCustomTypes, setItem, getItem]

/-- Witness for C7: two states differing only in their catalogs. -/
theorem custom_labels_client_only_witness :
    (handleSave { initialState with tabInfo := ⟨"T", "https://e.com"⟩ }).2 =
      (handleSave { initialState with
                    tabInfo := ⟨"T", "https://e.com"⟩
                    customTypes := [⟨"recipe", "🏷️ Recipe"⟩] }).2 ∧
    (∀ (l : List CustomType) (st : LocalStorage) (k : String),
        k ≠ "customTypes" → getItem k (saveCustomTypes l st) = getItem k st) ∧
    (∀ (l : List CustomType) (st : LocalStorage),
        getItem "customTypes" (saveCustomTypes l st) = some (renderCTs l)) :=
  custom_labels_client_only
    { initialState with tabInfo := ⟨"T", "https://e.com"⟩ }
    { initialState with
      tabInfo := ⟨"T", "https://e.com"⟩
      customTypes := [⟨"recipe", "🏷️ Recipe"⟩] }
    rfl rfl

/-- `String.mk` and `String.toList` are mutually inverse. -/
theorem toList_mk (l : List Char) : (String.mk l).toList = l := rfl

/-- A sequence beginning with whitespace collapses to a sequence
beginning with a hyphen. -/
theorem hyphen_head_of_headIsWs (l : List Char) (h : headIsWs l = true) :
    ∃ t, collapseWs l = '-' :: t := by
  induction l with
  | nil => simp [headIsWs] at h
  | cons c cs ih =>
    have hc : isJsWs c = true := h
    by_cases h2 : headIsWs cs
    · obtain ⟨t, ht⟩ := ih h2
      exact ⟨t, by simp [collapseWs, hc, h2, ht]⟩
    · exact ⟨collapseWs cs, by simp [collapseWs, hc, h2]⟩

/-- C8: when the entered name's trim is non-empty, adding a custom type
appends exactly one catalog entry whose `value` is the untrimmed name
lowercased with every maximal whitespace run replaced by a single
hyphen (stated via `joinDash`/`splitWs`; leading whitespace therefore
becomes a leading hyphen) and whose `label` is the trimmed name
prefixed with `🏷️ `; the new slug becomes the selected type. -/
theorem add_custom_type_behavior (s : AppState)
    (h : jsTrim s.newTypeName ≠ "") :
    (addCustomType s).customTypes =
      s.customTypes ++ [{ value := slugify s.newTypeName
                          label := "🏷️ " ++ jsTrim s.newTypeName }] ∧
    (addCustomType s).resourceType = slugify s.newTypeName ∧
    slugify s.newTypeName =
      String.mk (joinDash (splitWs (s.newTypeName.toList.map Char.toLower))) ∧
    (∀ c cs, s.newTypeName.toList = c :: cs → isJsWs c = true →
      ∃ t, (slugify s.newTypeName).toList = '-' :: t) := by
  refine ⟨by simp [addCustomType, h], by simp [addCustomType, h], ?_, ?_⟩
  · unfold slugify
    rw [collapseWs_eq_joinDash]
  · rintro c cs hl hw
    unfold slugify
    rw [hl]
    simp only [List.map_cons, toList_mk]
    have hw2 : isJsWs (Char.toLower c) = true := by
      rw [toLower_of_isJsWs c hw]; exact hw
    by_cases hh : headIsWs (cs.map Char.toLower)
    · have heq : collapseWs (Char.toLower c :: cs.map Char.toLower) =
          collapseWs (cs.map Char.toLower) := by
        simp [collapseWs, hw2, hh]
      rw [heq]
      exact hyphen_head_of_headIsWs _ hh
    · refine ⟨collapseWs (cs.map Char.toLower), ?_⟩
      simp [collapseWs, hw2, hh]

/-- Witness for C8 at the name `" My Tag"`. -/
theorem add_custom_type_behavior_witness :
    (addCustomType { initialState with newTypeName := " My Tag" }).customTypes =
      [] ++ [{ value := slugify " My Tag"
               label := "🏷️ " ++ jsTrim " My Tag" }] ∧
    (addCustomType { initialState with newTypeName := " My Tag" }).resourceType =
      slugify " My Tag" ∧
    slugify " My Tag" =
      String.mk (joinDash (splitWs (" My Tag".toList.map Char.toLower))) ∧
    (∀ c cs, " My Tag".toList = c :: cs → isJsWs c = true →
      ∃ t, (slugify " My Tag").toList = '-' :: t) :=
  add_custom_type_behavior { initialState with newTypeName := " My Tag" }
    (by decide)

/-- C9: `loadCustomTypes` is total on the public interface — it always
returns a list (its result type), yielding `[]` both when the
`customTypes` key is absent and when the stored value does not parse. -/
theorem load_custom_types_total :
    (∀ st : LocalStorage,
        getItem "customTypes" st = none → loadCustomTypes st = []) ∧
    (∀ (st : LocalStorage) (v : String),
        getItem "customTypes" st = some v → parseCTs v = none →
        loadCustomTypes st = []) := by
  constructor
  · intro st h
    simp [loadCustomTypes, h]
  · intro st v h hp
    by_cases hv : v = "" <;> simp [loadCustomTypes, h, hp, hv]

/-- Witness for C9: an empty store, and a store holding unparsable
text. -/
theorem load_custom_types_total_witness :
    loadCustomTypes [] = [] ∧
    loadCustomTypes [("customTypes", "not json")] = [] :=
  ⟨load_custom_types_total.1 [] rfl,
   load_custom_types_total.2 [("customTypes", "not json")] "not json"
     (by simp [getItem]) (by decide)⟩

/-- Hex digits round-trip through their character form. -/
theorem hexVal_hexDigitChar : ∀ m < 16, hexVal (hexDigitChar m) = some m := by
  decide

/-- One step of `parseStr`: a closing quote. -/
theorem parseStr_quote (rest : List Char) :
    parseStr ('"' :: rest) = some ([], rest) := by
  rw [parseStr.eq_def]
  simp

/-- One step of `parseStr`: a single-character escape. -/
theorem parseStr_esc (e u : Char) (rest : List Char)
    (hne : e ≠ 'u') (h : unescChar e = some u) :
    parseStr ('\\' :: e :: rest) = consFst u (parseStr rest) := by
  rw [parseStr.eq_def]
  simp [hne, h]

/-- One step of `parseStr`: a `\u` escape with four hex digits. -/
theorem parseStr_escU (h1 h2 h3 h4 : Char) (a b m d : Nat) (rest : List Char)
    (e1 : hexVal h1 = some a) (e2 : hexVal h2 = some b)
    (e3 : hexVal h3 = some m) (e4 : hexVal h4 = some d) :
    parseStr ('\\' :: 'u' :: h1 :: h2 :: h3 :: h4 :: rest) =
      consFst (Char.ofNat (((a * 16 + b) * 16 + m) * 16 + d)) (parseStr rest) := by
  rw [parseStr.eq_def]
  simp [e1, e2, e3, e4]

/-- One step of `parseStr`: an ordinary character. -/
theorem parseStr_plain (c : Char) (rest : List Char)
    (hq : c ≠ '"') (hb : c ≠ '\\') :
    parseStr (c :: rest) = consFst c (parseStr rest) := by
  rw [parseStr.eq_def]
  simp [hq, hb]

/-- Parsing undoes escaping: reading an escaped string body up to its
closing quote recovers the original characters and the rest of the
input. -/
theorem parseStr_escapeList (s : List Char) :
    ∀ rest, parseStr (escapeList s ++ '"' :: rest) = some (s, rest) := by
  induction s with
  | nil => intro rest; simpa [escapeList] using parseStr_quote rest
  | cons c cs ih =>
    intro rest
    by_cases hq : c = '"'
    · subst hq
      simp [escapeList, escapeChar,
        parseStr_esc '"' '"' _ (by decide) (by decide), consFst, ih]
    · by_cases hb : c = '\\'
      · subst hb
        simp [escapeList, escapeChar,
          parseStr_esc '\\' '\\' _ (by decide) (by decide), consFst, ih]
      · by_cases h3 : c = '\x08'
        · subst h3
          simp [escapeList, escapeChar,
            parseStr_esc 'b' '\x08' _ (by decide) (by decide), consFst, ih]
        · by_cases h4 : c = '\x09'
          · subst h4
            simp [escapeList, escapeChar,
              parseStr_esc 't' '\x09' _ (by decide) (by decide), consFst, ih]
          · by_cases h5 : c = '\x0a'
            · subst h5
              simp [escapeList, escapeChar,
                parseStr_esc 'n' '\x0a' _ (by decide) (by decide), consFst, ih]
            · by_cases h6 : c = '\x0c'
              · subst h6
                simp [escapeList, escapeChar,
                  parseStr_esc 'f' '\x0c' _ (by decide) (by decide), consFst,
                  ih]
              · by_cases h7 : c = '\x0d'
                · subst h7
                  simp [escapeList, escapeChar,
                    parseStr_esc 'r' '\x0d' _ (by decide) (by decide), consFst,
                    ih]
                · by_cases h8 : c.toNat < 0x20
                  · have e1 : hexVal (hexDigitChar (c.toNat / 16)) =
                        some (c.toNat / 16) :=
                      hexVal_hexDigitChar _ (by omega)
                    have e2 : hexVal (hexDigitChar (c.toNat % 16)) =
                        some (c.toNat % 16) :=
                      hexVal_hexDigitChar _ (Nat.mod_lt _ (by omega))
                    have hz : hexVal '0' = some 0 := by decide
                    have hc : Char.ofNat
                        (((0 * 16 + 0) * 16 + c.toNat / 16) * 16 + c.toNat % 16)
                        = c := by
                      have harith :
                          ((0 * 16 + 0) * 16 + c.toNat / 16) * 16 + c.toNat % 16
                            = c.toNat := by omega
                      rw [harith, Char.ofNat_toNat]
                    have echar : escapeChar c =
                        ['\\', 'u', '0', '0', hexDigitChar (c.toNat / 16),
                         hexDigitChar (c.toNat % 16)] := by
                      simp [escapeChar, hq, hb, h3, h4, h5, h6, h7, h8]
                    rw [escapeList, echar]
                    simp only [List.cons_append, List.nil_append,
                      List.append_assoc]
                    rw [parseStr_escU _ _ _ _ _ _ _ _ _ hz hz e1 e2, hc, ih,
                      consFst]
                  · have echar : escapeChar c = [c] := by
                      simp [escapeChar, hq, hb, h3, h4, h5, h6, h7, h8]
                    rw [escapeList, echar]
                    simp only [List.cons_append, List.nil_append]
                    rw [parseStr_plain c _ hq hb, ih, consFst]
/-- `String.toList` and `String.mk` are mutually inverse. -/
theorem mk_toList (s : String) : String.mk s.toList = s := rfl

/-- Parsing undoes rendering for one catalog entry. -/
theorem parseCT_renderCT (t : CustomType) (rest : List Char) :
    parseCT (renderCT t ++ rest) = some (t, rest) := by
  have hnorm : renderCT t ++ rest =
      '{' :: '"' :: 'v' :: 'a' :: 'l' :: 'u' :: 'e' :: '"' :: ':' :: '"' ::
        (escapeList t.value.toList ++ '"' ::
          (',' :: '"' :: 'l' :: 'a' :: 'b' :: 'e' :: 'l' :: '"' :: ':' :: '"' ::
            (escapeList t.label.toList ++ '"' :: ('}' :: rest)))) := by
    simp [renderCT, renderString]
  rw [hnorm, parseCT]
  have s1 : stripLead ['{', '"', 'v', 'a', 'l', 'u', 'e', '"', ':', '"']
      ('{' :: '"' :: 'v' :: 'a' :: 'l' :: 'u' :: 'e' :: '"' :: ':' :: '"' ::
        (escapeList t.value.toList ++ '"' ::
          (',' :: '"' :: 'l' :: 'a' :: 'b' :: 'e' :: 'l' :: '"' :: ':' :: '"' ::
            (escapeList t.label.toList ++ '"' :: ('}' :: rest))))) =
      some (escapeList t.value.toList ++ '"' ::
        (',' :: '"' :: 'l' :: 'a' :: 'b' :: 'e' :: 'l' :: '"' :: ':' :: '"' ::
          (escapeList t.label.toList ++ '"' :: ('}' :: rest)))) := rfl
  rw [s1, Option.some_bind, parseStr_escapeList, Option.some_bind]
  have s2 : stripLead [',', '"', 'l', 'a', 'b', 'e', 'l', '"', ':', '"']
      ((t.value.toList,
        ',' :: '"' :: 'l' :: 'a' :: 'b' :: 'e' :: 'l' :: '"' :: ':' :: '"' ::
          (escapeList t.label.toList ++ '"' :: ('}' :: rest))).2) =
      some (escapeList t.label.toList ++ '"' :: ('}' :: rest)) := rfl
  rw [s2, Option.some_bind, parseStr_escapeList, Option.some_bind]
  simp [expectClose, mk_toList]

/-- Parsing undoes rendering for the entry sequence of a non-empty
array, for any sufficient fuel. -/
theorem parseItemsAux_renderInner (ts : List CustomType) :
    ∀ (t : CustomType) (fuel : Nat), ts.length ≤ fuel →
      parseItemsAux fuel (renderInner (t :: ts) ++ [']']) = some (t :: ts) := by
  induction ts with
  | nil =>
    intro t fuel _
    have hsh : renderInner [t] ++ [']'] = renderCT t ++ [']'] := by
      simp [renderInner]
    rw [parseItemsAux, hsh, parseCT_renderCT]
    rfl
  | cons t2 ts2 ih =>
    intro t fuel hfuel
    have hsh : renderInner (t :: t2 :: ts2) ++ [']'] =
        renderCT t ++ (',' :: (renderInner (t2 :: ts2) ++ [']'])) := by
      simp [renderInner]
    cases fuel with
    | zero => exact absurd hfuel (by simp)
    | succ f =>
      have hf : ts2.length ≤ f := by
        simpa using Nat.le_of_succ_le_succ hfuel
      rw [parseItemsAux, hsh, parseCT_renderCT, Option.some_bind]
      simp [ih t2 f hf]

/-- Each entry after the first contributes at least one character. -/
theorem length_le_renderInner (ts : List CustomType) :
    ∀ t : CustomType, ts.length ≤ (renderInner (t :: ts)).length := by
  induction ts with
  | nil => intro t; simp
  | cons t2 ts2 ih =>
    intro t
    have hr : renderInner (t :: t2 :: ts2) =
        renderCT t ++ ',' :: renderInner (t2 :: ts2) := by
      simp [renderInner]
    have h2 := ih t2
    rw [hr, List.length_append]
    simp only [List.length_cons]
    omega

/-- Parsing undoes rendering for the whole catalog. -/
theorem parseCTs_renderCTs (l : List CustomType) :
    parseCTs (renderCTs l) = some l := by
  cases l with
  | nil => decide
  | cons t ts =>
    obtain ⟨tail, htail⟩ : ∃ tail, renderInner (t :: ts) = '{' :: tail := by
      cases ts <;> exact ⟨_, rfl⟩
    have h1 : (renderCTs (t :: ts)).toList =
        '[' :: (renderInner (t :: ts) ++ [']']) := rfl
    rw [parseCTs, h1, parseArr]
    rw [if_neg (by rw [htail]; simp)]
    exact parseItemsAux_renderInner ts t _
      (le_trans (length_le_renderInner ts t) (by simp))

/-- C10: saving a catalog and loading it back returns the same list —
`saveCustomTypes` then `loadCustomTypes` is the identity, for every
finite list of value/label pairs and every prior storage content. -/
theorem save_load_roundtrip (l : List CustomType) (st : LocalStorage) :
    loadCustomTypes (saveCustomTypes l st) = l := by
  have hget : getItem "customTypes" (saveCustomTypes l st) =
      some (renderCTs l) := by
    simp [saveCustomTypes, setItem, getItem]
  have hne : renderCTs l ≠ "" := by
    intro h
    have h2 := congrArg String.toList h
    simp [renderCTs, toList_mk] at h2
  rw [loadCustomTypes, hget]
  simp only [hne, if_false]
  rw [parseCTs_renderCTs]
  rfl

/-! ## Store invariants and the store claims -/

/-- The invariants every reachable store state satisfies: ids below the
next id, timestamps below the clock, unique ids, rows sorted strictly
by creation time. -/
def goodState (st : StoreState) : Prop :=
  (∀ r ∈ st.rows, r.id < st.nextId) ∧
  (∀ r ∈ st.rows, r.created_at < st.now) ∧
  (st.rows.map (fun r => r.id)).Nodup ∧
  st.rows.Pairwise (fun a b => a.created_at < b.created_at)

/-- The empty store satisfies the invariants. -/
theorem goodState_empty : goodState emptyStore := by
  simp [goodState, emptyStore]

/-- Every operation preserves the invariants. -/
theorem goodState_applyOp (st : StoreState) (op : Op) (h : goodState st) :
    goodState (applyOp st op) := by
  obtain ⟨hid, hca, hnd, hsorted⟩ := h
  cases op with
  | createOp t u ty =>
    by_cases hv : t = "" ∨ u = ""
    · simp [applyOp, create, hv, goodState]
      exact ⟨hid, hca, hnd, hsorted⟩
    · simp only [applyOp, create, hv, if_false]
      refine ⟨?_, ?_, ?_, ?_⟩
      · intro r hr
        rcases List.mem_append.1 hr with hr | hr
        · exact Nat.lt_succ_of_lt (hid r hr)
        · simp at hr
          subst hr
          exact Nat.lt_succ_self _
      · intro r hr
        rcases List.mem_append.1 hr with hr | hr
        · exact Nat.lt_succ_of_lt (hca r hr)
        · simp at hr
          subst hr
          exact Nat.lt_succ_self _
      · rw [List.map_append, List.nodup_append]
        refine ⟨hnd, by simp, ?_⟩
        intro a ha hb
        simp at hb
        simp only [List.mem_map] at ha
        obtain ⟨r, hr, hra⟩ := ha
        subst hb
        exact absurd hra (Nat.ne_of_lt (hid r hr))
      · rw [List.pairwise_append]
        refine ⟨hsorted, by simp, ?_⟩
        intro a ha b hb
        simp at hb
        subst hb
        exact hca a ha
  | deleteOp i =>
    have hsub : List.Sublist (st.rows.filter (fun r => r.id ≠ i)) st.rows :=
      List.filter_sublist st.rows
    simp only [applyOp, deleteById]
    refine ⟨?_, ?_, ?_, ?_⟩
    · intro r hr
      exact hid r (hsub.subset hr)
    · intro r hr
      exact hca r (hsub.subset hr)
    · exact hnd.sublist (hsub.map _)
    · exact hsorted.sublist hsub

/-- Every run from a good state stays good. -/
theorem goodState_runOps (ops : List Op) :
    ∀ st : StoreState, goodState st → goodState (runOps st ops) := by
  induction ops with
  | nil => intro st h; exact h
  | cons op ops ih =>
    intro st h
    exact ih (applyOp st op) (goodState_applyOp st op h)

/-- The next id never decreases. -/
theorem nextId_le_applyOp (st : StoreState) (op : Op) :
    st.nextId ≤ (applyOp st op).nextId := by
  cases op with
  | createOp t u ty =>
    by_cases hv : t = "" ∨ u = "" <;> simp [applyOp, create, hv]
  | deleteOp i => exact le_refl _

/-- Every id assigned along a run is at least the starting next id. -/
theorem le_assignedIds (ops : List Op) :
    ∀ (st : StoreState) (i : Nat), i ∈ assignedIds st ops → st.nextId ≤ i := by
  induction ops with
  | nil => intro st i h; simp [assignedIds] at h
  | cons op ops ih =>
    intro st i h
    cases op with
    | createOp t u ty =>
      by_cases hv : t = "" ∨ u = ""
      · rw [assignedIds, if_pos hv] at h
        exact le_trans (nextId_le_applyOp st _) (ih _ i h)
      · rw [assignedIds, if_neg hv] at h
        rcases List.mem_cons.1 h with h | h
        · exact le_of_eq h.symm
        · exact le_trans (nextId_le_applyOp st _) (ih _ i h)
    | deleteOp j =>
      exact le_trans (nextId_le_applyOp st _) (ih _ i h)

/-- The trace of assigned ids never repeats. -/
theorem assignedIds_nodup (ops : List Op) :
    ∀ st : StoreState, (assignedIds st ops).Nodup := by
  induction ops with
  | nil => intro st; simp [assignedIds]
  | cons op ops ih =>
    intro st
    cases op with
    | createOp t u ty =>
      by_cases hv : t = "" ∨ u = ""
      · rw [assignedIds, if_pos hv]
        exact ih _
      · rw [assignedIds, if_neg hv]
        refine List.Nodup.cons ?_ (ih _)
        intro hmem
        have hle := le_assignedIds ops (applyOp st (.createOp t u ty))
          st.nextId hmem
        have : (applyOp st (Op.createOp t u ty)).nextId = st.nextId + 1 := by
          simp [applyOp, create, hv]
        omega
    | deleteOp j =>
      rw [assignedIds]
      exact ih _

/-- C6: in every reachable store state the ids of the stored resources
are pairwise distinct, and the full trace of ids assigned by `create`
never repeats an id — an id is never reused, even after the record
bearing it was deleted. -/
theorem ids_unique_never_reused (ops : List Op) :
    ((runOps emptyStore ops).rows.map (fun r => r.id)).Nodup ∧
    (assignedIds emptyStore ops).Nodup :=
  ⟨(goodState_runOps ops emptyStore goodState_empty).2.2.1,
   assignedIds_nodup ops emptyStore⟩

/-- Inserting below every element keeps it at the head. -/
theorem insertByCreated_head (r : Resource) (l : List Resource)
    (h : ∀ x ∈ l, r.created_at ≤ x.created_at) :
    insertByCreated r l = r :: l := by
  cases l with
  | nil => rfl
  | cons x xs =>
    rw [insertByCreated, if_pos (h x (by simp))]

/-- Sorting a list already sorted strictly by creation time is the
identity. -/
theorem sortByCreated_eq_self (l : List Resource)
    (h : l.Pairwise (fun a b => a.created_at < b.created_at)) :
    sortByCreated l = l := by
  induction l with
  | nil => rfl
  | cons x xs ih =>
    rw [sortByCreated, ih (List.Pairwise.sublist (List.sublist_cons_self x xs) h)]
    exact insertByCreated_head x xs
      (fun y hy => le_of_lt ((List.pairwise_cons.1 h).1 y hy))

/-- C4: `listAll` returns the stored records ordered by `created_at`
ascending, which in every reachable state equals insertion order; the
empty catalog yields the empty sequence; creating A, B, C in order and
listing yields [A, B, C]. -/
theorem listAll_insertion_order :
    listAll emptyStore = [] ∧
    (∀ ops : List Op,
        listAll (runOps emptyStore ops) = (runOps emptyStore ops).rows) ∧
    listAll (runOps emptyStore
        [.createOp "A" "https://a.example" "article",
         .createOp "B" "https://b.example" "youtube",
         .createOp "C" "https://c.example" "tool"]) =
      [⟨1, "A", "https://a.example", "article", 0⟩,
       ⟨2, "B", "https://b.example", "youtube", 1⟩,
       ⟨3, "C", "https://c.example", "tool", 2⟩] := by
  refine ⟨rfl, ?_, by decide⟩
  intro ops
  exact sortByCreated_eq_self _
    (goodState_runOps ops emptyStore goodState_empty).2.2.2

/-- With distinct ids, filtering one id away drops exactly one row. -/
theorem filter_ne_length_of_mem (i : Nat) (rows : List Resource)
    (hnd : (rows.map (fun r => r.id)).Nodup)
    (hmem : i ∈ rows.map (fun r => r.id)) :
    (rows.filter (fun r => r.id ≠ i)).length + 1 = rows.length := by
  induction rows with
  | nil => simp at hmem
  | cons r rows ih =>
    simp only [List.map_cons, List.nodup_cons] at hnd
    rcases List.mem_cons.1 hmem with h | h
    · have hri : r.id = i := h.symm
      have hfilter : rows.filter (fun r2 => r2.id ≠ i) = rows := by
        rw [List.filter_eq_self]
        intro a ha
        rw [decide_eq_true_eq]
        intro hai
        have hmm : a.id ∈ List.map (fun r => r.id) rows :=
          List.mem_map_of_mem _ ha
        rw [hai, ← hri] at hmm
        exact hnd.1 hmm
      have hfalse : (decide (r.id ≠ i)) = false := by simp [hri]
      rw [List.filter_cons, hfalse]
      simp only [Bool.false_eq_true, if_false, hfilter, List.length_cons]
    · have hne : r.id ≠ i := by
        intro hri
        rw [← hri] at h
        exact hnd.1 h
      have htrue : (decide (r.id ≠ i)) = true := by simp [hne]
      rw [List.filter_cons, htrue, if_pos rfl]
      have h2 := ih hnd.2 h
      simp only [List.length_cons]
      omega

/-- The removal flag is exactly membership of the id. -/
theorem deleteById_fst (st : StoreState) (i : Nat) :
    (deleteById st i).1 = decide (i ∈ st.rows.map (fun r => r.id)) := by
  simp only [deleteById]
  rw [decide_eq_decide]
  constructor
  · intro hlen
    by_contra hmem
    apply hlen
    rw [List.filter_length_eq_length]
    intro a ha
    rw [decide_eq_true_eq]
    intro hai
    apply hmem
    rw [← hai]
    exact List.mem_map_of_mem _ ha
  · intro hmem hlen
    have hall := List.filter_length_eq_length.1 hlen
    obtain ⟨r, hr, hri⟩ := List.mem_map.1 hmem
    have hthis := hall r hr
    rw [decide_eq_true_eq] at hthis
    exact hthis hri

/-- C5: deleting an id present in a reachable catalog removes exactly
that record (the rest is the original list with only that id filtered
out, one row shorter), returns `true`, and deleting the same id again
returns `false` and changes nothing; in general the flag is true
exactly for present ids, so deleting an absent id reports `false`
rather than an error. -/
theorem deleteById_semantics (ops : List Op) (i : Nat)
    (h : i ∈ (runOps emptyStore ops).rows.map (fun r => r.id)) :
    (deleteById (runOps emptyStore ops) i).1 = true ∧
    (deleteById (runOps emptyStore ops) i).2.rows =
      (runOps emptyStore ops).rows.filter (fun r => r.id ≠ i) ∧
    (deleteById (runOps emptyStore ops) i).2.rows.length + 1 =
      (runOps emptyStore ops).rows.length ∧
    (deleteById ((deleteById (runOps emptyStore ops) i).2) i).1 = false ∧
    (deleteById ((deleteById (runOps emptyStore ops) i).2) i).2.rows =
      (deleteById (runOps emptyStore ops) i).2.rows ∧
    (∀ j : Nat, (deleteById (runOps emptyStore ops) j).1 =
      decide (j ∈ (runOps emptyStore ops).rows.map (fun r => r.id))) := by
  have hgood := goodState_runOps ops emptyStore goodState_empty
  have hidem : ((runOps emptyStore ops).rows.filter
      (fun r => r.id ≠ i)).filter (fun r => r.id ≠ i) =
      (runOps emptyStore ops).rows.filter (fun r => r.id ≠ i) :=
    List.filter_eq_self.2 (fun a ha => (List.mem_filter.1 ha).2)
  refine ⟨?_, rfl, ?_, ?_, ?_, fun j => deleteById_fst _ j⟩
  · rw [deleteById_fst]
    simp [h]
  · exact filter_ne_length_of_mem i _ hgood.2.2.1 h
  · simp only [deleteById, hidem]
    simp
  · simp only [deleteById, hidem]

/-- Witness for C5: create one record, then delete its id twice and
probe an absent id. -/
theorem deleteById_semantics_witness :
    (deleteById (runOps emptyStore [.createOp "t" "u" "article"]) 1).1 = true ∧
    (deleteById (runOps emptyStore [.createOp "t" "u" "article"]) 1).2.rows =
      (runOps emptyStore [.createOp "t" "u" "article"]).rows.filter
        (fun r => r.id ≠ 1) ∧
    (deleteById (runOps emptyStore [.createOp "t" "u" "article"]) 1).2.rows.length
        + 1 =
      (runOps emptyStore [.createOp "t" "u" "article"]).rows.length ∧
    (deleteById ((deleteById (runOps emptyStore
        [.createOp "t" "u" "article"]) 1).2) 1).1 = false ∧
    (deleteById ((deleteById (runOps emptyStore
        [.createOp "t" "u" "article"]) 1).2) 1).2.rows =
      (deleteById (runOps emptyStore [.createOp "t" "u" "article"]) 1).2.rows ∧
    (∀ j : Nat,
      (deleteById (runOps emptyStore [.createOp "t" "u" "article"]) j).1 =
        decide (j ∈ (runOps emptyStore
          [.createOp "t" "u" "article"]).rows.map (fun r => r.id))) :=
  deleteById_semantics [.createOp "t" "u" "article"] 1 (by decide)

end ResourceSaver
